import Mathlib

/-!
Verification of the frame-sampling, cleanup and summarization routines of the
Visus video-vision pipeline (source files `video_analysis.py` and `app.py`).

The Python source is shallowly embedded:

* `cv2.VideoCapture` is modelled by `VideoCapture`: whether the source opened
  plus the sequence of reported frame positions (`CAP_PROP_POS_MSEC`, in
  milliseconds, read after each successful `cap.read()`), in decode order.
  Positions are modelled as integers.
* `extract_frames_from_video` is the direct transliteration of the sampling
  loop: a running `next_extraction_time_ms` threshold starting at 0, a
  `frame_count` decode-order counter, selection when the reported position is
  greater than or equal to the threshold, and threshold advance by exactly
  `interval_ms` on selection.  The result is the list of
  (decode-order index, position) pairs of the selected frames; the persisted
  path of a selected frame is recovered by `frame_filename`, the embedding of
  `os.path.join(output_folder, "frame_" + zero-padded index + ".jpg")`.
-/

/-- Model of an opened `cv2.VideoCapture`: `isOpened` is the result of
`cap.isOpened()`, and `frames` lists, in decode order, the position in
milliseconds (`CAP_PROP_POS_MSEC`) reported for each frame that
`cap.read()` successfully returns. -/
structure VideoCapture where
  isOpened : Bool
  frames : List Int

/-- The sampling loop of `extract_frames_from_video` (`video_analysis.py`,
lines 47-72).  State: `next` is `next_extraction_time_ms`, `count` is
`frame_count`.  A frame with reported position `t` is selected when
`t >= next`; on selection the threshold advances by exactly `interval_ms`
and the pair (decode-order index, position) is appended; the decode-order
counter advances on every frame. -/
def extractLoop (interval_ms : Int) : List Int → Int → Nat → List (Nat × Int)
  | [], _, _ => []
  | t :: rest, next, count =>
    if next ≤ t then
      (count, t) :: extractLoop interval_ms rest (next + interval_ms) (count + 1)
    else
      extractLoop interval_ms rest next (count + 1)

/-- Embedding of `extract_frames_from_video` (`video_analysis.py`, lines
5-79): if the capture did not open, return the empty list immediately;
otherwise run the sampling loop with threshold 0 and decode counter 0. -/
def extract_frames_from_video (cap : VideoCapture) (interval_ms : Int) :
    List (Nat × Int) :=
  if cap.isOpened then extractLoop interval_ms cap.frames 0 0 else []

/-- Decode-order indices of the selected frames, in selection order. -/
def selectedIndices (cap : VideoCapture) (interval_ms : Int) : List Nat :=
  (extract_frames_from_video cap interval_ms).map Prod.fst

/-- The decimal digit characters, as produced by Python string formatting. -/
def digitChar (d : Nat) : Char :=
  match d with
  | 0 => '0' | 1 => '1' | 2 => '2' | 3 => '3' | 4 => '4'
  | 5 => '5' | 6 => '6' | 7 => '7' | 8 => '8' | 9 => '9'
  | _ => 'x'

/-- Little-endian decimal digit characters of `n`, with explicit fuel so the
recursion is structural (the empty list for `n = 0`). -/
def natDigitsRevAux : Nat → Nat → List Char
  | 0, _ => []
  | fuel + 1, n => if n = 0 then [] else digitChar (n % 10) :: natDigitsRevAux fuel (n / 10)

/-- Most-significant-first decimal digit characters of `n` (empty for 0). -/
def natNumeral (n : Nat) : List Char :=
  (natDigitsRevAux n n).reverse

/-- Left-pad a character list with the digit 0 to width `w`, the behaviour of
the Python format specification `05d` for width 5 (longer numerals are kept
unchanged). -/
def zfill (w : Nat) (s : List Char) : List Char :=
  List.replicate (w - s.length) '0' ++ s

/-- Embedding of the persisted-frame path construction of
`extract_frames_from_video` (line 60): the output folder joined with
`frame_`, the decode-order index zero-padded to width 5, and `.jpg`. -/
def frame_filename (output_folder : String) (frame_count : Nat) : String :=
  output_folder ++ "/frame_" ++ String.mk (zfill 5 (natNumeral frame_count)) ++ ".jpg"

/-- The list of persisted image paths returned by
`extract_frames_from_video`: one path per selected frame, named by its
decode-order index. -/
def extracted_frame_paths (output_folder : String) (cap : VideoCapture)
    (interval_ms : Int) : List String :=
  (extract_frames_from_video cap interval_ms).map
    (fun pr => frame_filename output_folder pr.1)

/-- Selection flags of the sampling loop: one Boolean per decoded frame, in
decode order, recording whether the loop selects that frame.  Used as proof
scaffolding for the threshold characterization. -/
def selFlags (interval_ms : Int) : List Int → Int → List Bool
  | [], _ => []
  | t :: rest, next =>
    if next ≤ t then true :: selFlags interval_ms rest (next + interval_ms)
    else false :: selFlags interval_ms rest next

/-- Number of `true` entries of a Boolean list. -/
def countTrue (bs : List Bool) : Nat :=
  (bs.filter (fun b => b)).length

/-- Positions (offset by `c`) of the `true` entries of a Boolean list. -/
def trueIdxs : List Bool → Nat → List Nat
  | [], _ => []
  | true :: bs, c => c :: trueIdxs bs (c + 1)
  | false :: bs, c => trueIdxs bs (c + 1)

/-- Number of frames the sampler selects among the first `p` decoded frames
of the stream `ts` at interval `I`. -/
def selCountBefore (ts : List Int) (I : Int) (p : Nat) : Nat :=
  ((selectedIndices ⟨true, ts⟩ I).filter (fun j => decide (j < p))).length

/-- The selection predicate stated by the claim, following the spec words:
frame `j` is the first frame of the stream whose timestamp reaches or
exceeds some multiple of the interval.  (Refinement comparison definition;
the sampling loop itself is `extract_frames_from_video`.) -/
def specFirstToReachMultiple (ts : List Int) (I : Int) (j : Nat) : Prop :=
  ∃ k : Nat, j < ts.length ∧ I * (k : Int) ≤ ts.getD j 0 ∧
    ∀ i, i < j → ts.getD i 0 < I * (k : Int)

/-- The snapping variant of the sampling loop, following the spec words
(threshold reset to the current position plus the interval on selection);
used only to show the code does not snap. -/
def snapExtractLoop (interval_ms : Int) : List Int → Int → Nat → List (Nat × Int)
  | [], _, _ => []
  | t :: rest, next, count =>
    if next ≤ t then
      (count, t) :: snapExtractLoop interval_ms rest (t + interval_ms) (count + 1)
    else
      snapExtractLoop interval_ms rest next (count + 1)

/-- The timestamp stream of the end-to-end example of the spec: 0, 500,
1000, ..., 9500 milliseconds.  It has 20 entries. -/
def demoTimestamps20 : List Int :=
  [0, 500, 1000, 1500, 2000, 2500, 3000, 3500, 4000, 4500,
   5000, 5500, 6000, 6500, 7000, 7500, 8000, 8500, 9000, 9500]

/-- A 21-frame reading of the same example: 0, 500, ..., 10000. -/
def demoTimestamps21 : List Int :=
  demoTimestamps20 ++ [10000]

/-- Strip trailing slash characters, as `str.rstrip` on the separator does
in the Python path handling. -/
def rstripSlashes (l : List Char) : List Char :=
  (l.reverse.dropWhile (fun c => c == '/')).reverse

/-- Embedding of `os.path.dirname` for POSIX paths: everything up to the
last separator, with trailing separators stripped unless the head is all
separators; the empty string when the path has no separator. -/
def dirname (p : String) : String :=
  let l := p.data
  let tailLen := (l.reverse.takeWhile (fun c => c != '/')).length
  let head := l.take (l.length - tailLen)
  if head.isEmpty then ""
  else if head.all (fun c => c == '/') then String.mk head
  else String.mk (rstripSlashes head)

/-- Model of the filesystem as seen by `delete_video_and_images_by_list`:
the set of existing file paths, the set of existing directory paths, and
the paths whose removal raises `OSError` (the failure oracle; the code
catches such errors and continues). -/
structure FileSystem where
  files : List String
  dirs : List String
  failing : List String

/-- `os.path.exists`: the path names an existing file or directory. -/
def FileSystem.pathExists (fs : FileSystem) (p : String) : Prop :=
  p ∈ fs.files ∨ p ∈ fs.dirs

instance (fs : FileSystem) (p : String) : Decidable (fs.pathExists p) := by
  unfold FileSystem.pathExists
  exact Or.decidable

/-- Successful `os.remove p`: afterwards no file named `p` exists. -/
def FileSystem.removeFile (fs : FileSystem) (p : String) : FileSystem :=
  { fs with files := fs.files.filter (fun q => q != p) }

/-- Successful `os.rmdir p`: afterwards no directory named `p` exists. -/
def FileSystem.removeDir (fs : FileSystem) (p : String) : FileSystem :=
  { fs with dirs := fs.dirs.filter (fun q => q != p) }

/-- `os.listdir d` is empty: no existing file or directory has `d` as its
containing directory. -/
def FileSystem.dirEmpty (fs : FileSystem) (d : String) : Prop :=
  (∀ f ∈ fs.files, dirname f ≠ d) ∧ (∀ s ∈ fs.dirs, dirname s ≠ d)

instance (fs : FileSystem) (d : String) : Decidable (fs.dirEmpty d) := by
  unfold FileSystem.dirEmpty
  exact And.decidable

/-- Stable insertion into a list kept sorted by decreasing string length. -/
def insertDesc (d : String) : List String → List String
  | [] => [d]
  | e :: es => if e.length ≤ d.length then d :: e :: es else e :: insertDesc d es

/-- `sorted(dirs, key=len, reverse=True)`: the directories ordered by
decreasing path length (deepest first). -/
def sortByLenDesc (l : List String) : List String :=
  l.foldr insertDesc []

/-- Step 1 of `delete_video_and_images_by_list` (`video_analysis.py`, lines
97-105): delete the video file if it exists; an `OSError` from `os.remove`
is caught and leaves the filesystem unchanged; an absent video is skipped. -/
def deleteVideoStep (fs : FileSystem) (video_path : String) : FileSystem :=
  if fs.pathExists video_path then
    if video_path ∈ fs.failing then fs else fs.removeFile video_path
  else fs

/-- Step 2 body of `delete_video_and_images_by_list` (lines 114-126), one
image path: if the path exists, try `os.remove`; on success record its
containing directory (when non-empty and not already recorded, modelling
the Python set in insertion order); on `OSError` the state is unchanged and
no directory is recorded; an absent path is skipped. -/
def deleteImagesStep (st : FileSystem × List String) (image_path : String) :
    FileSystem × List String :=
  let fs := st.1
  let parents := st.2
  if fs.pathExists image_path then
    if image_path ∈ fs.failing then (fs, parents)
    else
      let fs' := fs.removeFile image_path
      let parent_dir := dirname image_path
      if parent_dir ≠ "" ∧ parent_dir ∉ parents then (fs', parents ++ [parent_dir])
      else (fs', parents)
  else (fs, parents)

/-- Step 3 body of `delete_video_and_images_by_list` (lines 133-145), one
candidate directory: if it exists and `os.listdir` is empty, try
`os.rmdir`; an `OSError` is caught and leaves the state unchanged;
non-empty or absent directories are skipped. -/
def deleteDirStep (fs : FileSystem) (p_dir : String) : FileSystem :=
  if fs.pathExists p_dir then
    if fs.dirEmpty p_dir then
      if p_dir ∈ fs.failing then fs else fs.removeDir p_dir
    else fs
  else fs

/-- The candidate parent directories of step 3, in processing order:
the distinct containing directories of the successfully deleted images,
sorted by decreasing path length (deepest first, line 132). -/
def cleanupDirOrder (fs : FileSystem) (video_path : String)
    (list_of_image_paths : List String) : List String :=
  sortByLenDesc
    (list_of_image_paths.foldl deleteImagesStep (deleteVideoStep fs video_path, [])).2

/-- Embedding of `delete_video_and_images_by_list` (`video_analysis.py`,
lines 87-145): delete the video, delete each listed image, then delete
each distinct containing directory of the deleted images, deepest first,
when it is empty.  Every `OSError` is caught (modelled by the `failing`
oracle leaving the state unchanged), so the function is total: it cannot
raise to its caller. -/
def delete_video_and_images_by_list (fs : FileSystem) (video_path : String)
    (list_of_image_paths : List String) : FileSystem :=
  (cleanupDirOrder fs video_path list_of_image_paths).foldl deleteDirStep
    (list_of_image_paths.foldl deleteImagesStep (deleteVideoStep fs video_path, [])).1

/-- One entry of the user-turn content list of the multimodal request:
either an image-URL entry or a text entry. -/
inductive UserPart where
  | image_url (url : String)
  | text (content : String)

/-- Message content: a plain string (the system message) or a list of
typed parts (the user message). -/
inductive MessageContent where
  | str (s : String)
  | parts (l : List UserPart)

/-- One chat message of the outbound request. -/
structure ChatMessage where
  role : String
  content : MessageContent

/-- The outbound request of `analyze_video_from_image_urls`: model name,
messages, and the `max_tokens` bound. -/
structure ChatRequest where
  model : String
  messages : List ChatMessage
  max_tokens : Nat

/-- The system-message text of `analyze_video_from_image_urls` (line 185). -/
def systemContent : String :=
  "You are a helpful assistant that analyzes video content."

/-- The trailing text instruction appended after the image entries
(line 203). -/
def finalQueryText : String :=
  "The above images are a sequence of frames from a video, presented in chronological order. Please describe the main activities, objects, and scene changes visible across these frames, and provide a concise summary of what happens in the video. Focus on narrative flow and key events."

/-- The appending loop of lines 191-199: one `image_url` entry appended to
the user content per input URL, in input order. -/
def appendImageParts (content : List UserPart) (image_urls : List String) :
    List UserPart :=
  image_urls.foldl (fun acc url => acc ++ [UserPart.image_url url]) content

/-- The messages built by `analyze_video_from_image_urls` (lines 184-204):
one system message, then one user message whose content is the image
entries followed by the single trailing text instruction. -/
def buildMessages (image_urls : List String) : List ChatMessage :=
  [ ⟨"system", MessageContent.str systemContent⟩,
    ⟨"user", MessageContent.parts
      (appendImageParts [] image_urls ++ [UserPart.text finalQueryText])⟩ ]

/-- The complete outbound request of lines 208-216. -/
def buildRequest (image_urls : List String) : ChatRequest :=
  ⟨"qwen/qwen2.5-vl-72b-instruct:free", buildMessages image_urls, 4000⟩

/-- Embedding of `analyze_video_from_image_urls` (`video_analysis.py`,
lines 165-224).  The remote call is abstracted by `api`, which returns the
answer text or a transport/API failure; the `try/except` of the source
turns any failure into `none`.  An empty URL list returns `none` before
any request is built or sent (the result does not depend on `api`). -/
def analyze_video_from_image_urls (api : ChatRequest → Except String String)
    (image_urls : List String) : Option String :=
  if image_urls.isEmpty then none
  else
    match api (buildRequest image_urls) with
    | Except.ok content => some content
    | Except.error _ => none

/-- A small concrete filesystem used to instantiate the cleanup theorem. -/
def cleanupExampleFS : FileSystem :=
  { files := ["d/a.jpg", "e/b.jpg"], dirs := ["d", "e"], failing := [] }

theorem selFlags_length (I : Int) :
    ∀ (ts : List Int) (next : Int), (selFlags I ts next).length = ts.length := by
  intro ts
  induction ts with
  | nil => intro next; rfl
  | cons t rest ih =>
    intro next
    by_cases h : next ≤ t
    · simp [selFlags, h, ih]
    · simp [selFlags, h, ih]

theorem countTrue_nil : countTrue [] = 0 := rfl

theorem countTrue_cons (b : Bool) (bs : List Bool) :
    countTrue (b :: bs) = b.toNat + countTrue bs := by
  cases b <;> simp [countTrue, List.filter] <;> omega

theorem selFlags_getD_iff (I : Int) :
    ∀ (ts : List Int) (next : Int) (p : Nat), p < ts.length →
      ((selFlags I ts next).getD p false = true ↔
        next + I * (countTrue ((selFlags I ts next).take p) : Int) ≤ ts.getD p 0) := by
  intro ts
  induction ts with
  | nil => intro next p hp; exact absurd hp (Nat.not_lt_zero p)
  | cons t rest ih =>
    intro next p hp
    by_cases h : next ≤ t
    · cases p with
      | zero =>
        simp [selFlags, h, countTrue]
      | succ q =>
        have hq : q < rest.length := Nat.lt_of_succ_lt_succ hp
        have hrec := ih (next + I) q hq
        simp only [selFlags, if_pos h, List.getD_cons_succ, List.take_succ_cons,
          countTrue_cons, Bool.toNat_true, List.getD_cons_zero] at *
        rw [hrec]
        constructor <;> intro hle <;> push_cast at * <;> linarith
    · cases p with
      | zero =>
        simp [selFlags, h, countTrue]
      | succ q =>
        have hq : q < rest.length := Nat.lt_of_succ_lt_succ hp
        have hrec := ih next q hq
        simp only [selFlags, if_neg h, List.getD_cons_succ, List.take_succ_cons,
          countTrue_cons, Bool.toNat_false, List.getD_cons_zero] at *
        rw [hrec]
        constructor <;> intro hle <;> push_cast at * <;> linarith

theorem trueIdxs_lb : ∀ (bs : List Bool) (c j : Nat), j ∈ trueIdxs bs c → c ≤ j := by
  intro bs
  induction bs with
  | nil => intro c j hj; simp [trueIdxs] at hj
  | cons b rest ih =>
    intro c j hj
    cases b with
    | true =>
      simp only [trueIdxs, List.mem_cons] at hj
      rcases hj with rfl | hj
      · exact Nat.le_refl j
      · exact Nat.le_of_succ_le (ih (c + 1) j hj)
    | false =>
      simp only [trueIdxs] at hj
      exact Nat.le_of_succ_le (ih (c + 1) j hj)

theorem trueIdxs_mem_add :
    ∀ (bs : List Bool) (c p : Nat),
      (c + p) ∈ trueIdxs bs c ↔ p < bs.length ∧ bs.getD p false = true := by
  intro bs
  induction bs with
  | nil => intro c p; simp [trueIdxs]
  | cons b rest ih =>
    intro c p
    cases p with
    | zero =>
      cases b with
      | true => simp [trueIdxs]
      | false =>
        simp only [trueIdxs, Nat.add_zero, List.getD_cons_zero]
        constructor
        · intro h
          exact absurd (trueIdxs_lb rest (c + 1) c h) (by omega)
        · intro h
          exact absurd h.2 (by simp)
    | succ q =>
      have hstep : c + (q + 1) = (c + 1) + q := by omega
      cases b with
      | true =>
        simp only [trueIdxs, List.mem_cons, List.length_cons, List.getD_cons_succ]
        rw [hstep, ih (c + 1) q]
        constructor
        · intro h
          rcases h with h | h
          · omega
          · exact ⟨by omega, h.2⟩
        · intro h
          exact Or.inr ⟨by omega, h.2⟩
      | false =>
        simp only [trueIdxs, List.length_cons, List.getD_cons_succ]
        rw [hstep, ih (c + 1) q]
        constructor
        · intro h; exact ⟨by omega, h.2⟩
        · intro h; exact ⟨by omega, h.2⟩

theorem trueIdxs_mem (bs : List Bool) (p : Nat) :
    p ∈ trueIdxs bs 0 ↔ p < bs.length ∧ bs.getD p false = true := by
  have := trueIdxs_mem_add bs 0 p
  simpa using this

theorem trueIdxs_filter_take :
    ∀ (bs : List Bool) (c p : Nat),
      (trueIdxs bs c).filter (fun j => decide (j < c + p)) = trueIdxs (bs.take p) c := by
  intro bs
  induction bs with
  | nil => intro c p; simp [trueIdxs]
  | cons b rest ih =>
    intro c p
    cases p with
    | zero =>
      simp only [Nat.add_zero, List.take_zero]
      rw [List.filter_eq_nil_iff.mpr]
      · cases b <;> rfl
      · intro j hj
        have := trueIdxs_lb (b :: rest) c j hj
        simp only [decide_eq_true_eq]
        omega
    | succ q =>
      have hstep : c + (q + 1) = (c + 1) + q := by omega
      cases b with
      | true =>
        rw [hstep]
        simp only [trueIdxs, List.take_succ_cons, List.filter_cons, ih (c + 1) q]
        have hc : c < c + 1 + q := by omega
        simp [hc]
      | false =>
        simp only [trueIdxs, List.take_succ_cons]
        rw [hstep, ih (c + 1) q]

theorem trueIdxs_length :
    ∀ (bs : List Bool) (c : Nat), (trueIdxs bs c).length = countTrue bs := by
  intro bs
  induction bs with
  | nil => intro c; rfl
  | cons b rest ih =>
    intro c
    cases b with
    | true => simp [trueIdxs, countTrue_cons, ih, Nat.add_comm]
    | false => simp [trueIdxs, countTrue_cons, ih]

theorem trueIdxs_pairwise :
    ∀ (bs : List Bool) (c : Nat), (trueIdxs bs c).Pairwise (· < ·) := by
  intro bs
  induction bs with
  | nil => intro c; exact List.Pairwise.nil
  | cons b rest ih =>
    intro c
    cases b with
    | true =>
      refine List.Pairwise.cons ?_ (ih (c + 1))
      intro j hj
      have := trueIdxs_lb rest (c + 1) j hj
      omega
    | false => exact ih (c + 1)

theorem map_fst_extractLoop (I : Int) :
    ∀ (ts : List Int) (next : Int) (c : Nat),
      (extractLoop I ts next c).map Prod.fst = trueIdxs (selFlags I ts next) c := by
  intro ts
  induction ts with
  | nil => intro next c; rfl
  | cons t rest ih =>
    intro next c
    by_cases h : next ≤ t
    · simp only [extractLoop, selFlags, if_pos h, List.map_cons, trueIdxs, ih]
    · simp only [extractLoop, selFlags, if_neg h, trueIdxs, ih]

theorem extractLoop_mem_entry (I : Int) :
    ∀ (ts : List Int) (next : Int) (c : Nat) (pr : Nat × Int),
      pr ∈ extractLoop I ts next c →
        ∃ p, p < ts.length ∧ pr = (c + p, ts.getD p 0) := by
  intro ts
  induction ts with
  | nil => intro next c pr h; simp [extractLoop] at h
  | cons t rest ih =>
    intro next c pr h
    by_cases hsel : next ≤ t
    · simp only [extractLoop, if_pos hsel, List.mem_cons] at h
      rcases h with rfl | h
      · exact ⟨0, by simp⟩
      · obtain ⟨p, hp, hpr⟩ := ih (next + I) (c + 1) pr h
        exact ⟨p + 1, by simpa using hp, by simpa [Nat.add_assoc, Nat.add_comm 1 p] using hpr⟩
    · simp only [extractLoop, if_neg hsel] at h
      obtain ⟨p, hp, hpr⟩ := ih next (c + 1) pr h
      exact ⟨p + 1, by simpa using hp, by simpa [Nat.add_assoc, Nat.add_comm 1 p] using hpr⟩

theorem extractLoop_mem_lb (I : Int) (ts : List Int) (next : Int) (c : Nat)
    (pr : Nat × Int) (h : pr ∈ extractLoop I ts next c) : c ≤ pr.1 := by
  obtain ⟨p, _, hpr⟩ := extractLoop_mem_entry I ts next c pr h
  subst hpr
  exact Nat.le_add_right c p

theorem extractLoop_pairwise_fst (I : Int) :
    ∀ (ts : List Int) (next : Int) (c : Nat),
      (extractLoop I ts next c).Pairwise (fun a b => a.1 < b.1) := by
  intro ts
  induction ts with
  | nil => intro next c; exact List.Pairwise.nil
  | cons t rest ih =>
    intro next c
    by_cases h : next ≤ t
    · simp only [extractLoop, if_pos h]
      refine List.Pairwise.cons ?_ (ih (next + I) (c + 1))
      intro b hb
      have := extractLoop_mem_lb I rest (next + I) (c + 1) b hb
      omega
    · simp only [extractLoop, if_neg h]
      exact ih next (c + 1)

theorem extractLoop_eq_nil (I : Int) :
    ∀ (ts : List Int) (next : Int) (c : Nat),
      (∀ t ∈ ts, t < next) → extractLoop I ts next c = [] := by
  intro ts
  induction ts with
  | nil => intro next c _; rfl
  | cons t rest ih =>
    intro next c h
    have ht : t < next := h t (List.mem_cons_self t rest)
    simp only [extractLoop, if_neg (by omega : ¬ next ≤ t)]
    exact ih next (c + 1) (fun u hu => h u (List.mem_cons_of_mem t hu))

theorem selectedIndices_eq_trueIdxs (ts : List Int) (I : Int) :
    selectedIndices ⟨true, ts⟩ I = trueIdxs (selFlags I ts 0) 0 := by
  simp [selectedIndices, extract_frames_from_video, map_fst_extractLoop]

theorem selCountBefore_eq_countTrue (ts : List Int) (I : Int) (p : Nat) :
    selCountBefore ts I p = countTrue ((selFlags I ts 0).take p) := by
  unfold selCountBefore
  rw [selectedIndices_eq_trueIdxs]
  have h := trueIdxs_filter_take (selFlags I ts 0) 0 p
  simp only [Nat.zero_add] at h
  rw [h, trueIdxs_length]

/-- Central characterization of the sampling loop: a decoded frame is
selected exactly when its reported position reaches or exceeds the interval
times the number of frames selected before it (the running threshold starts
at 0 and advances by exactly the interval on each selection). -/
theorem mem_selectedIndices_iff (ts : List Int) (I : Int) (p : Nat) :
    p ∈ selectedIndices ⟨true, ts⟩ I ↔
      p < ts.length ∧ I * (selCountBefore ts I p : Int) ≤ ts.getD p 0 := by
  rw [selectedIndices_eq_trueIdxs, trueIdxs_mem]
  have hlen := selFlags_length I ts 0
  constructor
  · rintro ⟨hp, hflag⟩
    have hp' : p < ts.length := hlen ▸ hp
    have h := (selFlags_getD_iff I ts 0 p hp').mp hflag
    rw [selCountBefore_eq_countTrue]
    constructor
    · exact hp'
    · linarith
  · rintro ⟨hp', hle⟩
    have hp : p < (selFlags I ts 0).length := hlen ▸ hp'
    refine ⟨hp, (selFlags_getD_iff I ts 0 p hp').mpr ?_⟩
    rw [selCountBefore_eq_countTrue] at hle
    linarith

theorem extractLoop_pairwise_both (I : Int) (ts : List Int)
    (hmono : ts.Pairwise (· < ·)) (next : Int) :
    (extractLoop I ts next 0).Pairwise (fun a b => a.1 < b.1 ∧ a.2 < b.2) := by
  have hfst := extractLoop_pairwise_fst I ts next 0
  refine List.Pairwise.imp_of_mem ?_ hfst
  intro a b ha hb hab
  refine ⟨hab, ?_⟩
  obtain ⟨pa, hpa, hea⟩ := extractLoop_mem_entry I ts next 0 a ha
  obtain ⟨pb, hpb, heb⟩ := extractLoop_mem_entry I ts next 0 b hb
  subst hea
  subst heb
  simp only [Nat.zero_add] at hab ⊢
  have hget := List.pairwise_iff_get.mp hmono ⟨pa, hpa⟩ ⟨pb, hpb⟩ hab
  have ha' : ts.getD pa 0 = ts.get ⟨pa, hpa⟩ := List.getD_eq_get ts 0 hpa
  have hb' : ts.getD pb 0 = ts.get ⟨pb, hpb⟩ := List.getD_eq_get ts 0 hpb
  rw [ha', hb']
  exact hget

theorem natDigitsRevAux_eq_digits :
    ∀ (fuel n : Nat), n ≤ fuel →
      natDigitsRevAux fuel n = (Nat.digits 10 n).map digitChar := by
  intro fuel
  induction fuel with
  | zero =>
    intro n hn
    have : n = 0 := Nat.le_zero.mp hn
    subst this
    simp [natDigitsRevAux]
  | succ f ih =>
    intro n hn
    by_cases h0 : n = 0
    · subst h0; simp [natDigitsRevAux]
    · have hpos : 0 < n := Nat.pos_of_ne_zero h0
      rw [Nat.digits_def' (by norm_num : (1:Nat) < 10) hpos]
      have hdiv : n / 10 ≤ f := by
        have := Nat.div_lt_self hpos (by norm_num : (1:Nat) < 10)
        omega
      simp only [natDigitsRevAux, if_neg h0, List.map_cons, ih (n / 10) hdiv]

theorem natNumeral_eq_digits (n : Nat) :
    natNumeral n = ((Nat.digits 10 n).map digitChar).reverse := by
  unfold natNumeral
  rw [natDigitsRevAux_eq_digits n n (Nat.le_refl n)]

theorem digitChar_inj_on :
    ∀ a, a < 10 → ∀ b, b < 10 → digitChar a = digitChar b → a = b := by
  decide

theorem digitChar_ne_zero_char :
    ∀ d, d < 10 → d ≠ 0 → digitChar d ≠ '0' := by
  decide

theorem map_digitChar_inj :
    ∀ (l₁ l₂ : List Nat), (∀ d ∈ l₁, d < 10) → (∀ d ∈ l₂, d < 10) →
      l₁.map digitChar = l₂.map digitChar → l₁ = l₂ := by
  intro l₁
  induction l₁ with
  | nil =>
    intro l₂ _ _ h
    cases l₂ with
    | nil => rfl
    | cons b bs => simp at h
  | cons a as ih =>
    intro l₂ h₁ h₂ h
    cases l₂ with
    | nil => simp at h
    | cons b bs =>
      simp only [List.map_cons, List.cons.injEq] at h
      have ha : a < 10 := h₁ a (List.mem_cons_self a as)
      have hb : b < 10 := h₂ b (List.mem_cons_self b bs)
      have hab : a = b := digitChar_inj_on a ha b hb h.1
      have htl : as = bs :=
        ih bs (fun d hd => h₁ d (List.mem_cons_of_mem a hd))
          (fun d hd => h₂ d (List.mem_cons_of_mem b hd)) h.2
      rw [hab, htl]

theorem natNumeral_inj :
    ∀ (a b : Nat), natNumeral a = natNumeral b → a = b := by
  intro a b h
  rw [natNumeral_eq_digits, natNumeral_eq_digits] at h
  have h' := List.reverse_injective h
  have hdig : Nat.digits 10 a = Nat.digits 10 b :=
    map_digitChar_inj _ _
      (fun d hd => Nat.digits_lt_base (by norm_num) hd)
      (fun d hd => Nat.digits_lt_base (by norm_num) hd) h'
  exact Nat.digits.injective 10 hdig

theorem natNumeral_ne_nil (n : Nat) (hn : n ≠ 0) : natNumeral n ≠ [] := by
  rw [natNumeral_eq_digits]
  simp only [ne_eq, List.reverse_eq_nil_iff, List.map_eq_nil_iff]
  exact Nat.digits_ne_nil_iff_ne_zero.mpr hn

theorem getLast?_map_comm {α β : Type} (f : α → β) :
    ∀ (l : List α), (l.map f).getLast? = l.getLast?.map f := by
  intro l
  induction l with
  | nil => rfl
  | cons a as ih =>
    cases as with
    | nil => rfl
    | cons b bs =>
      simp only [List.map_cons, List.getLast?_cons_cons] at *
      exact ih

theorem natNumeral_head_ne_zero (n : Nat) (hn : n ≠ 0) :
    ∀ c, (natNumeral n).head? = some c → c ≠ '0' := by
  intro c hc
  rw [natNumeral_eq_digits, List.head?_reverse, getLast?_map_comm] at hc
  have hne : Nat.digits 10 n ≠ [] := Nat.digits_ne_nil_iff_ne_zero.mpr hn
  rw [List.getLast?_eq_getLast _ hne] at hc
  simp only [Option.map_some', Option.some.injEq] at hc
  have hmem : (Nat.digits 10 n).getLast hne ∈ Nat.digits 10 n := List.getLast_mem hne
  have hlt : (Nat.digits 10 n).getLast hne < 10 := Nat.digits_lt_base (by norm_num) hmem
  have hnz : (Nat.digits 10 n).getLast hne ≠ 0 := Nat.getLast_digit_ne_zero 10 hn
  rw [← hc]
  exact digitChar_ne_zero_char _ hlt hnz

theorem dropWhile_zero_replicate_append :
    ∀ (k : Nat) (s : List Char), (∀ c, s.head? = some c → c ≠ '0') →
      List.dropWhile (fun c => c == '0') (List.replicate k '0' ++ s) = s := by
  intro k
  induction k with
  | zero =>
    intro s hs
    cases s with
    | nil => rfl
    | cons c cs =>
      have hc : c ≠ '0' := hs c rfl
      simp only [List.replicate, List.nil_append, List.dropWhile_cons]
      rw [if_neg (by simpa using hc)]
  | succ m ih =>
    intro s hs
    simp only [List.replicate_succ, List.cons_append, List.dropWhile_cons]
    rw [if_pos (by simp)]
    exact ih s hs

theorem zfill_natNumeral_inj (a b : Nat)
    (h : zfill 5 (natNumeral a) = zfill 5 (natNumeral b)) : a = b := by
  unfold zfill at h
  have ha := dropWhile_zero_replicate_append (5 - (natNumeral a).length) (natNumeral a)
  have hb := dropWhile_zero_replicate_append (5 - (natNumeral b).length) (natNumeral b)
  by_cases h0a : a = 0
  · by_cases h0b : b = 0
    · rw [h0a, h0b]
    · exfalso
      have hna : natNumeral a = [] := by rw [h0a]; rfl
      have heq : natNumeral b =
          List.dropWhile (fun c => c == '0') (List.replicate (5 - (natNumeral b).length) '0' ++ natNumeral b) :=
        (hb (natNumeral_head_ne_zero b h0b)).symm
      rw [← h, hna] at heq
      have : natNumeral b = [] := by
        rw [heq]
        simp [List.dropWhile_replicate]
      exact natNumeral_ne_nil b h0b this
  · by_cases h0b : b = 0
    · exfalso
      have hnb : natNumeral b = [] := by rw [h0b]; rfl
      have heq : natNumeral a =
          List.dropWhile (fun c => c == '0') (List.replicate (5 - (natNumeral a).length) '0' ++ natNumeral a) :=
        (ha (natNumeral_head_ne_zero a h0a)).symm
      rw [h, hnb] at heq
      have : natNumeral a = [] := by
        rw [heq]
        simp [List.dropWhile_replicate]
      exact natNumeral_ne_nil a h0a this
    · have ha' := ha (natNumeral_head_ne_zero a h0a)
      have hb' := hb (natNumeral_head_ne_zero b h0b)
      apply natNumeral_inj
      rw [← ha', ← hb', h]

theorem string_data_append (s t : String) : (s ++ t).data = s.data ++ t.data := by
  cases s
  cases t
  rfl

theorem frame_filename_inj (output_folder : String) (a b : Nat)
    (h : frame_filename output_folder a = frame_filename output_folder b) : a = b := by
  unfold frame_filename at h
  have hdata := congrArg String.data h
  simp only [string_data_append, List.append_assoc] at hdata
  have h₁ := List.append_cancel_left hdata
  have h₂ := List.append_cancel_left h₁
  have h₃ := List.append_cancel_right h₂
  exact zfill_natNumeral_inj a b h₃

theorem extracted_frame_paths_nodup (output_folder : String) (cap : VideoCapture)
    (interval_ms : Int) : (extracted_frame_paths output_folder cap interval_ms).Nodup := by
  have key : ∀ (l : List (Nat × Int)), l.Pairwise (fun a b => a.1 < b.1) →
      (l.map (fun pr => frame_filename output_folder pr.1)).Nodup := by
    intro l hl
    have h1 : l.map (fun pr => frame_filename output_folder pr.1) =
        (l.map Prod.fst).map (frame_filename output_folder) := by
      rw [List.map_map]
      rfl
    rw [h1]
    have hpw : (l.map Prod.fst).Pairwise (· < ·) := by
      rw [List.pairwise_map]
      exact hl
    exact List.Nodup.map (fun a b hab => frame_filename_inj output_folder a b hab)
      (List.Pairwise.imp (fun h => Nat.ne_of_lt h) hpw)
  unfold extracted_frame_paths extract_frames_from_video
  by_cases hop : cap.isOpened
  · rw [if_pos hop]
    exact key _ (extractLoop_pairwise_fst interval_ms cap.frames 0 0)
  · rw [if_neg hop]
    simp

theorem deleteImagesStep_dirs (st : FileSystem × List String) (p : String) :
    (deleteImagesStep st p).1.dirs = st.1.dirs := by
  unfold deleteImagesStep
  by_cases h1 : st.1.pathExists p
  · rw [if_pos h1]
    by_cases h2 : p ∈ st.1.failing
    · rw [if_pos h2]
    · rw [if_neg h2]
      by_cases h3 : dirname p ≠ "" ∧ dirname p ∉ st.2
      · rw [if_pos h3]
        rfl
      · rw [if_neg h3]
        rfl
  · rw [if_neg h1]

theorem deleteImagesStep_failing (st : FileSystem × List String) (p : String) :
    (deleteImagesStep st p).1.failing = st.1.failing := by
  unfold deleteImagesStep
  by_cases h1 : st.1.pathExists p
  · rw [if_pos h1]
    by_cases h2 : p ∈ st.1.failing
    · rw [if_pos h2]
    · rw [if_neg h2]
      by_cases h3 : dirname p ≠ "" ∧ dirname p ∉ st.2
      · rw [if_pos h3]
        rfl
      · rw [if_neg h3]
        rfl
  · rw [if_neg h1]

theorem deleteImagesStep_files_subset (st : FileSystem × List String) (p : String) :
    ∀ q, q ∈ (deleteImagesStep st p).1.files → q ∈ st.1.files := by
  intro q
  unfold deleteImagesStep
  by_cases h1 : st.1.pathExists p
  · rw [if_pos h1]
    by_cases h2 : p ∈ st.1.failing
    · rw [if_pos h2]; exact id
    · rw [if_neg h2]
      by_cases h3 : dirname p ≠ "" ∧ dirname p ∉ st.2
      · rw [if_pos h3]
        intro hq
        exact List.mem_of_mem_filter hq
      · rw [if_neg h3]
        intro hq
        exact List.mem_of_mem_filter hq
  · rw [if_neg h1]; exact id

theorem foldl_deleteImagesStep_dirs :
    ∀ (imgs : List String) (st : FileSystem × List String),
      (imgs.foldl deleteImagesStep st).1.dirs = st.1.dirs := by
  intro imgs
  induction imgs with
  | nil => intro st; rfl
  | cons p rest ih =>
    intro st
    rw [List.foldl_cons, ih, deleteImagesStep_dirs]

theorem foldl_deleteImagesStep_failing :
    ∀ (imgs : List String) (st : FileSystem × List String),
      (imgs.foldl deleteImagesStep st).1.failing = st.1.failing := by
  intro imgs
  induction imgs with
  | nil => intro st; rfl
  | cons p rest ih =>
    intro st
    rw [List.foldl_cons, ih, deleteImagesStep_failing]

theorem foldl_deleteImagesStep_files_subset :
    ∀ (imgs : List String) (st : FileSystem × List String) (q : String),
      q ∈ (imgs.foldl deleteImagesStep st).1.files → q ∈ st.1.files := by
  intro imgs
  induction imgs with
  | nil => intro st q; exact id
  | cons p rest ih =>
    intro st q hq
    exact deleteImagesStep_files_subset st p q (ih (deleteImagesStep st p) q hq)

theorem foldl_deleteImagesStep_removed :
    ∀ (imgs : List String) (st : FileSystem × List String) (p : String),
      p ∈ imgs → p ∉ st.1.failing →
        p ∉ (imgs.foldl deleteImagesStep st).1.files := by
  intro imgs
  induction imgs with
  | nil => intro st p hp; exact absurd hp (List.not_mem_nil p)
  | cons q rest ih =>
    intro st p hp hfail
    rw [List.foldl_cons]
    by_cases hpq : p = q
    · subst hpq
      have hgone : p ∉ (deleteImagesStep st p).1.files := by
        unfold deleteImagesStep
        by_cases h1 : st.1.pathExists p
        · rw [if_pos h1, if_neg hfail]
          by_cases h3 : dirname p ≠ "" ∧ dirname p ∉ st.2
          · rw [if_pos h3]
            intro hmem
            have := List.of_mem_filter hmem
            simp at this
          · rw [if_neg h3]
            intro hmem
            have := List.of_mem_filter hmem
            simp at this
        · rw [if_neg h1]
          intro hmem
          exact h1 (Or.inl hmem)
      intro hmem
      exact hgone (foldl_deleteImagesStep_files_subset rest (deleteImagesStep st p) p hmem)
    · have hp' : p ∈ rest := by
        cases List.mem_cons.mp hp with
        | inl h => exact absurd h hpq
        | inr h => exact h
      have hfail' : p ∉ (deleteImagesStep st q).1.failing := by
        rw [deleteImagesStep_failing]
        exact hfail
      exact ih (deleteImagesStep st q) p hp' hfail'

theorem deleteVideoStep_removed (fs : FileSystem) (v : String)
    (hfail : v ∉ fs.failing) : v ∉ (deleteVideoStep fs v).files := by
  unfold deleteVideoStep
  by_cases h1 : fs.pathExists v
  · rw [if_pos h1, if_neg hfail]
    intro hmem
    have := List.of_mem_filter hmem
    simp at this
  · rw [if_neg h1]
    intro hmem
    exact h1 (Or.inl hmem)

theorem deleteVideoStep_dirs (fs : FileSystem) (v : String) :
    (deleteVideoStep fs v).dirs = fs.dirs := by
  unfold deleteVideoStep
  by_cases h1 : fs.pathExists v
  · rw [if_pos h1]
    by_cases h2 : v ∈ fs.failing
    · rw [if_pos h2]
    · rw [if_neg h2]
      rfl
  · rw [if_neg h1]

theorem deleteVideoStep_failing (fs : FileSystem) (v : String) :
    (deleteVideoStep fs v).failing = fs.failing := by
  unfold deleteVideoStep
  by_cases h1 : fs.pathExists v
  · rw [if_pos h1]
    by_cases h2 : v ∈ fs.failing
    · rw [if_pos h2]
    · rw [if_neg h2]
      rfl
  · rw [if_neg h1]

theorem deleteDirStep_files (fs : FileSystem) (d : String) :
    (deleteDirStep fs d).files = fs.files := by
  unfold deleteDirStep
  by_cases h1 : fs.pathExists d
  · rw [if_pos h1]
    by_cases h2 : fs.dirEmpty d
    · rw [if_pos h2]
      by_cases h3 : d ∈ fs.failing
      · rw [if_pos h3]
      · rw [if_neg h3]
        rfl
    · rw [if_neg h2]
  · rw [if_neg h1]

theorem foldl_deleteDirStep_files :
    ∀ (ds : List String) (fs : FileSystem),
      (ds.foldl deleteDirStep fs).files = fs.files := by
  intro ds
  induction ds with
  | nil => intro fs; rfl
  | cons d rest ih =>
    intro fs
    rw [List.foldl_cons, ih, deleteDirStep_files]

theorem foldl_deleteDirStep_deleted_empty :
    ∀ (ds : List String) (fs : FileSystem) (d : String),
      d ∈ fs.dirs → d ∉ (ds.foldl deleteDirStep fs).dirs →
        ∀ f ∈ fs.files, dirname f ≠ d := by
  intro ds
  induction ds with
  | nil =>
    intro fs d hin hout
    exact absurd hin hout
  | cons e rest ih =>
    intro fs d hin hout
    rw [List.foldl_cons] at hout
    by_cases hstill : d ∈ (deleteDirStep fs e).dirs
    · have hfiles : (deleteDirStep fs e).files = fs.files := deleteDirStep_files fs e
      have := ih (deleteDirStep fs e) d hstill hout
      rw [hfiles] at this
      exact this
    · unfold deleteDirStep at hstill
      by_cases h1 : fs.pathExists e
      · rw [if_pos h1] at hstill
        by_cases h2 : fs.dirEmpty e
        · rw [if_pos h2] at hstill
          by_cases h3 : e ∈ fs.failing
          · rw [if_pos h3] at hstill
            exact absurd hin hstill
          · rw [if_neg h3] at hstill
            have hde : d = e := by
              by_contra hne
              apply hstill
              unfold FileSystem.removeDir
              simp only [List.mem_filter]
              exact ⟨hin, by simpa using hne⟩
            subst hde
            exact h2.1
        · rw [if_neg h2] at hstill
          exact absurd hin hstill
      · rw [if_neg h1] at hstill
        exact absurd hin hstill

theorem insertDesc_mem (d : String) :
    ∀ (l : List String) (x : String), x ∈ insertDesc d l ↔ x = d ∨ x ∈ l := by
  intro l
  induction l with
  | nil => intro x; simp [insertDesc]
  | cons e es ih =>
    intro x
    unfold insertDesc
    by_cases h : e.length ≤ d.length
    · rw [if_pos h]
      simp
    · rw [if_neg h]
      simp only [List.mem_cons, ih]
      tauto

theorem insertDesc_pairwise (d : String) :
    ∀ (l : List String),
      l.Pairwise (fun a b => b.length ≤ a.length) →
      (insertDesc d l).Pairwise (fun a b => b.length ≤ a.length) := by
  intro l
  induction l with
  | nil => intro _; exact List.pairwise_singleton _ d
  | cons e es ih =>
    intro hl
    unfold insertDesc
    by_cases h : e.length ≤ d.length
    · rw [if_pos h]
      refine List.Pairwise.cons ?_ hl
      intro x hx
      rcases List.mem_cons.mp hx with rfl | hx'
      · exact h
      · have := List.rel_of_pairwise_cons hl hx'
        omega
    · rw [if_neg h]
      have hes : es.Pairwise (fun a b => b.length ≤ a.length) := hl.tail
      refine List.Pairwise.cons ?_ (ih hes)
      intro x hx
      rcases (insertDesc_mem d es x).mp hx with rfl | hx'
      · omega
      · exact List.rel_of_pairwise_cons hl hx'

theorem sortByLenDesc_pairwise :
    ∀ (l : List String),
      (sortByLenDesc l).Pairwise (fun a b => b.length ≤ a.length) := by
  intro l
  induction l with
  | nil => exact List.Pairwise.nil
  | cons e es ih =>
    unfold sortByLenDesc at *
    rw [List.foldr_cons]
    exact insertDesc_pairwise e _ ih

theorem appendImageParts_eq :
    ∀ (urls : List String) (acc : List UserPart),
      appendImageParts acc urls = acc ++ urls.map UserPart.image_url := by
  intro urls
  induction urls with
  | nil => intro acc; simp [appendImageParts]
  | cons u us ih =>
    intro acc
    unfold appendImageParts at *
    rw [List.foldl_cons, ih]
    simp

/-- C1 counterexample: with the strictly increasing stream
0, 5000, 5500, 6000 and interval 1000, the sampler selects the frame at
decode index 2 (position 5500), although that frame is not the first of
the stream to reach or exceed any multiple of 1000 (frame 1, at 5000,
already reaches every multiple up to 5000, and 5500 does not reach 6000).
So the selected set is not the set described by the claim. -/
theorem sampler_not_first_to_reach_multiples :
    2 ∈ selectedIndices ⟨true, [0, 5000, 5500, 6000]⟩ 1000 ∧
    ¬ specFirstToReachMultiple [0, 5000, 5500, 6000] 1000 2 := by
  constructor
  · decide
  · rintro ⟨k, _, hk, hfirst⟩
    have h1 := hfirst 1 (by omega)
    have e1 : ([0, 5000, 5500, 6000] : List Int).getD 1 0 = 5000 := rfl
    have e2 : ([0, 5000, 5500, 6000] : List Int).getD 2 0 = 5500 := rfl
    rw [e1] at h1
    rw [e2] at hk
    omega

/-- C1 (amended): for a strictly increasing decoded stream and positive
interval, the selected decode indices are strictly increasing (stream
order) and a frame is selected exactly when its timestamp reaches or
exceeds the interval times the number of frames selected before it: the
thresholds 0, I, 2I, ... are consumed one per selection, so after a
timestamp jump the jumping frame consumes only one multiple and later
frames may be selected without being first to reach any multiple.
Selection is a pure function of the decoded sequence and the interval,
hence deterministic. -/
theorem sampler_selection_characterization (ts : List Int) (I : Int)
    (hmono : ts.Pairwise (· < ·)) (hI : 0 < I) :
    (selectedIndices ⟨true, ts⟩ I).Pairwise (· < ·) ∧
    (∀ p, p ∈ selectedIndices ⟨true, ts⟩ I ↔
      p < ts.length ∧ I * (selCountBefore ts I p : Int) ≤ ts.getD p 0) := by
  constructor
  · rw [selectedIndices_eq_trueIdxs]
    exact trueIdxs_pairwise _ 0
  · intro p
    exact mem_selectedIndices_iff ts I p

/-- C1 witness: the characterization instantiated at the stream
0, 5000, 5500, 6000 with interval 1000 and decode index 2. -/
theorem sampler_selection_characterization_witness :
    2 ∈ selectedIndices ⟨true, [0, 5000, 5500, 6000]⟩ 1000 ↔
      2 < ([0, 5000, 5500, 6000] : List Int).length ∧
      (1000 : Int) * (selCountBefore [0, 5000, 5500, 6000] 1000 2 : Int) ≤
        ([0, 5000, 5500, 6000] : List Int).getD 2 0 :=
  (sampler_selection_characterization [0, 5000, 5500, 6000] 1000 (by decide)
    (by decide)).2 2

/-- C2: a decoded frame is selected (persisted and appended) exactly when
its reported position is greater than or equal to the running threshold,
which starts at 0 and advances by exactly the interval on each selection
(hence equals the interval times the number of prior selections); and the
loop is not the snapping variant that resets the threshold to the current
position plus the interval. -/
theorem sampler_threshold_rule :
    (∀ (ts : List Int) (I : Int) (p : Nat), p < ts.length →
      (p ∈ selectedIndices ⟨true, ts⟩ I ↔
        I * (selCountBefore ts I p : Int) ≤ ts.getD p 0)) ∧
    extractLoop 1000 [0, 5000, 5500, 6000] 0 0 ≠
      snapExtractLoop 1000 [0, 5000, 5500, 6000] 0 0 := by
  constructor
  · intro ts I p hp
    have h := mem_selectedIndices_iff ts I p
    constructor
    · intro hmem
      exact (h.mp hmem).2
    · intro hle
      exact h.mpr ⟨hp, hle⟩
  · decide

/-- C2 witness: the threshold rule instantiated at the stream 0, 400, 1000
with interval 1000 and decode index 2. -/
theorem sampler_threshold_rule_witness :
    2 ∈ selectedIndices ⟨true, [0, 400, 1000]⟩ 1000 ↔
      (1000 : Int) * (selCountBefore [0, 400, 1000] 1000 2 : Int) ≤
        ([0, 400, 1000] : List Int).getD 2 0 :=
  sampler_threshold_rule.1 [0, 400, 1000] 1000 2 (by decide)

/-- C3 counterexample: the timestamps 0, 500, ..., 9500 listed by the claim
are 20 frames, not 21; and on the genuine 21-frame reading of the example
(0, 500, ..., 10000) the sampler selects 11 frames with decode indices
0, 2, ..., 20, not the 10 frames the claim states. -/
theorem example_stream_counterexample :
    demoTimestamps20.length = 20 ∧ demoTimestamps21.length = 21 ∧
    selectedIndices ⟨true, demoTimestamps21⟩ 1000 =
      [0, 2, 4, 6, 8, 10, 12, 14, 16, 18, 20] := by
  refine ⟨by decide, by decide, by decide⟩

/-- C3 (amended): on the 20-frame stream 0, 500, ..., 9500 with interval
1000 the sampler selects exactly the 10 frames at 0, 1000, ..., 9000,
with decode-order indices 0, 2, ..., 18. -/
theorem example_stream_selection :
    extract_frames_from_video ⟨true, demoTimestamps20⟩ 1000 =
      [(0, 0), (2, 1000), (4, 2000), (6, 3000), (8, 4000),
       (10, 5000), (12, 6000), (14, 7000), (16, 8000), (18, 9000)] := by
  decide

/-- C4: when the source cannot be opened the sampler returns the empty
result immediately (the embedding is a total function, so no exception
reaches the caller). -/
theorem unopened_source_empty_result :
    ∀ (ts : List Int) (I : Int) (folder : String),
      extract_frames_from_video ⟨false, ts⟩ I = [] ∧
      extracted_frame_paths folder ⟨false, ts⟩ I = [] := by
  intro ts I folder
  exact ⟨rfl, rfl⟩

/-- C5: over a strictly increasing decoded stream the result is strictly
increasing both in decode index and in source timestamp (so its order is
the chronological order of the source), and no two entries reference the
same persisted path. -/
theorem sampler_result_invariants (folder : String) (ts : List Int) (I : Int)
    (hmono : ts.Pairwise (· < ·)) :
    (extract_frames_from_video ⟨true, ts⟩ I).Pairwise
      (fun a b => a.1 < b.1 ∧ a.2 < b.2) ∧
    (extracted_frame_paths folder ⟨true, ts⟩ I).Nodup := by
  constructor
  · have h := extractLoop_pairwise_both I ts hmono 0
    simpa [extract_frames_from_video] using h
  · exact extracted_frame_paths_nodup folder ⟨true, ts⟩ I

/-- C5 witness: the invariants instantiated at the stream 0, 500, 1000
with interval 400. -/
theorem sampler_result_invariants_witness :
    (extract_frames_from_video ⟨true, [0, 500, 1000]⟩ 400).Pairwise
      (fun a b => a.1 < b.1 ∧ a.2 < b.2) ∧
    (extracted_frame_paths "out" ⟨true, [0, 500, 1000]⟩ 400).Nodup :=
  sampler_result_invariants "out" [0, 500, 1000] 400 (by decide)

/-- C6 counterexample: the stream 0, 5, 3 has nonnegative timestamps and
its last timestamp 3 is smaller than the interval 4, yet the sampler
selects two frames (the threshold is 4 after the first selection and the
out-of-order position 5 reaches it), not exactly the first frame. -/
theorem interval_exceeds_last_counterexample :
    (([0, 5, 3] : List Int).all (fun t => decide (0 ≤ t)) = true) ∧
    ([0, 5, 3] : List Int).getLast (List.cons_ne_nil 0 [5, 3]) < 4 ∧
    extract_frames_from_video ⟨true, [0, 5, 3]⟩ 4 = [(0, 0), (1, 5)] := by
  refine ⟨by decide, by decide, by decide⟩

/-- C6 (amended): for a non-empty decoded stream whose first timestamp is
nonnegative and in which no timestamp exceeds the last one (in particular
any nondecreasing stream, where the last timestamp is the total duration),
an interval strictly larger than the last timestamp selects exactly one
frame: the first decoded frame. -/
theorem interval_exceeds_duration_single_frame (t0 : Int) (rest : List Int)
    (I : Int) (h0 : 0 ≤ t0)
    (hdur : ∀ t ∈ t0 :: rest, t ≤ (t0 :: rest).getLast (List.cons_ne_nil t0 rest))
    (hI : (t0 :: rest).getLast (List.cons_ne_nil t0 rest) < I) :
    extract_frames_from_video ⟨true, t0 :: rest⟩ I = [(0, t0)] := by
  have hbody : extract_frames_from_video ⟨true, t0 :: rest⟩ I =
      (0, t0) :: extractLoop I rest (0 + I) 1 := by
    simp only [extract_frames_from_video, extractLoop, if_pos h0, if_true]
  rw [hbody]
  have hnil : extractLoop I rest (0 + I) 1 = [] := by
    apply extractLoop_eq_nil
    intro t ht
    have h1 := hdur t (List.mem_cons_of_mem t0 ht)
    linarith
  rw [hnil]

/-- C6 witness: the amended claim instantiated at the stream 0, 3 with
interval 4. -/
theorem interval_exceeds_duration_single_frame_witness :
    extract_frames_from_video ⟨true, [0, 3]⟩ 4 = [(0, 0)] :=
  interval_exceeds_duration_single_frame 0 [3] 4 (by decide) (by decide) (by decide)

/-- C7: the persisted paths of one sampler call are pairwise distinct for
every capture, interval and output folder (each path embeds the
zero-padded decode-order index, and those indices strictly increase); and
the index counts every decoded frame, not only selected ones: on the
stream 0, 500, 1000 with interval 1000 the selected indices are 0 and 2,
skipping the unselected middle frame. -/
theorem frame_paths_unique :
    (∀ (folder : String) (cap : VideoCapture) (I : Int),
      (extracted_frame_paths folder cap I).Nodup) ∧
    selectedIndices ⟨true, [0, 500, 1000]⟩ 1000 = [0, 2] := by
  exact ⟨fun folder cap I => extracted_frame_paths_nodup folder cap I, by decide⟩

/-- C8: summarization on an empty image list returns the failure result
for every possible remote behaviour (so no network call can influence the
result); on any list the outbound request holds exactly the image entries
in input order followed by the single trailing text instruction; and a
transport or API failure yields the failure result instead of an
exception (the embedding is total). -/
theorem analyze_video_request_contract :
    (∀ api, analyze_video_from_image_urls api [] = none) ∧
    (∀ urls, (buildRequest urls).messages =
      [⟨"system", MessageContent.str systemContent⟩,
       ⟨"user", MessageContent.parts
         (urls.map UserPart.image_url ++ [UserPart.text finalQueryText])⟩]) ∧
    (∀ api urls e, api (buildRequest urls) = Except.error e →
      analyze_video_from_image_urls api urls = none) := by
  refine ⟨?_, ?_, ?_⟩
  · intro api
    rfl
  · intro urls
    unfold buildRequest buildMessages
    rw [appendImageParts_eq]
    simp
  · intro api urls e herr
    unfold analyze_video_from_image_urls
    by_cases hempty : urls.isEmpty
    · rw [if_pos hempty]
    · rw [if_neg hempty, herr]

/-- C8 witness: a failing remote call on a singleton URL list yields the
failure result. -/
theorem analyze_video_request_contract_witness :
    analyze_video_from_image_urls (fun _ => Except.error "boom") ["u"] = none :=
  analyze_video_request_contract.2.2 (fun _ => Except.error "boom") ["u"] "boom" rfl

/-- C9: the cleanup routine is a total function of the filesystem model
(every OSError of the source is caught, so nothing propagates and the pass
always completes); the video and every listed image whose removal does not
fail are gone afterwards (absent paths are skipped, not errors); every
directory it deletes had no remaining file inside; and the candidate
directories are processed deepest-path-first by path length. -/
theorem cleanup_best_effort :
    ∀ (fs : FileSystem) (v : String) (imgs : List String),
      (v ∉ fs.failing → v ∉ (delete_video_and_images_by_list fs v imgs).files) ∧
      (∀ p, p ∈ imgs → p ∉ fs.failing →
        p ∉ (delete_video_and_images_by_list fs v imgs).files) ∧
      (∀ d, d ∈ fs.dirs → d ∉ (delete_video_and_images_by_list fs v imgs).dirs →
        ∀ f ∈ (delete_video_and_images_by_list fs v imgs).files, dirname f ≠ d) ∧
      (cleanupDirOrder fs v imgs).Pairwise (fun a b => b.length ≤ a.length) := by
  intro fs v imgs
  have hfiles3 : (delete_video_and_images_by_list fs v imgs).files =
      (imgs.foldl deleteImagesStep (deleteVideoStep fs v, [])).1.files := by
    unfold delete_video_and_images_by_list
    rw [foldl_deleteDirStep_files]
  refine ⟨?_, ?_, ?_, ?_⟩
  · intro hfail
    rw [hfiles3]
    intro hmem
    exact deleteVideoStep_removed fs v hfail
      (foldl_deleteImagesStep_files_subset imgs (deleteVideoStep fs v, []) v hmem)
  · intro p hp hfail
    rw [hfiles3]
    apply foldl_deleteImagesStep_removed imgs (deleteVideoStep fs v, []) p hp
    show p ∉ (deleteVideoStep fs v).failing
    rw [deleteVideoStep_failing]
    exact hfail
  · intro d hin hout f hf
    have hdirs2 : (imgs.foldl deleteImagesStep (deleteVideoStep fs v, [])).1.dirs
        = fs.dirs := by
      rw [foldl_deleteImagesStep_dirs]
      exact deleteVideoStep_dirs fs v
    have hin2 : d ∈ (imgs.foldl deleteImagesStep (deleteVideoStep fs v, [])).1.dirs := by
      rw [hdirs2]
      exact hin
    unfold delete_video_and_images_by_list at hout
    have hkey := foldl_deleteDirStep_deleted_empty (cleanupDirOrder fs v imgs)
      (imgs.foldl deleteImagesStep (deleteVideoStep fs v, [])).1 d hin2 hout
    rw [hfiles3] at hf
    exact hkey f hf
  · exact sortByLenDesc_pairwise _

/-- C9 witness: on a concrete filesystem with files d/a.jpg and e/b.jpg,
deleting image d/a.jpg removes it, and the directory d (deleted because it
became empty) contains no remaining file. -/
theorem cleanup_best_effort_witness :
    dirname "e/b.jpg" ≠ "d" ∧
    "d/a.jpg" ∉ (delete_video_and_images_by_list cleanupExampleFS "v" ["d/a.jpg"]).files := by
  constructor
  · exact (cleanup_best_effort cleanupExampleFS "v" ["d/a.jpg"]).2.2.1 "d"
      (by decide) (by decide) "e/b.jpg" (by decide)
  · exact (cleanup_best_effort cleanupExampleFS "v" ["d/a.jpg"]).2.1 "d/a.jpg"
      (by decide) (by decide)

/-- C10: a source that opens and whose first decoded frame reports a
nonnegative position yields a non-empty result whose first entry is the
frame at decode index 0: the threshold starts at 0, so the first frame is
always selected. -/
theorem first_frame_always_selected (t0 : Int) (rest : List Int) (I : Int)
    (h0 : 0 ≤ t0) :
    extract_frames_from_video ⟨true, t0 :: rest⟩ I ≠ [] ∧
    (extract_frames_from_video ⟨true, t0 :: rest⟩ I).head? = some (0, t0) := by
  have hbody : extract_frames_from_video ⟨true, t0 :: rest⟩ I =
      (0, t0) :: extractLoop I rest (0 + I) 1 := by
    simp only [extract_frames_from_video, extractLoop, if_pos h0, if_true]
  rw [hbody]
  exact ⟨List.cons_ne_nil _ _, rfl⟩

/-- C10 witness: the singleton stream with position 0 and interval 5. -/
theorem first_frame_always_selected_witness :
    extract_frames_from_video ⟨true, [0]⟩ 5 ≠ [] ∧
    (extract_frames_from_video ⟨true, [0]⟩ 5).head? = some (0, 0) :=
  first_frame_always_selected 0 [] 5 (by decide)
